import Mathlib

/-!
# Verification of the DirectLiNGAM ordering engine (src/DirectLiNGAM.py)

Shallow embedding of the core of `DirectLiNGAM.py`.  Sample vectors are
lists of rationals; the transcendental kernel mutual-information statistic
`calc_T_kernel_value` (Gaussian Gram matrices, LU log-determinants) is not
exactly representable, so the ordering engine is parameterised by a score
oracle `T` playing its role; everything else — the residual/causal-effect
arithmetic, the prior-knowledge candidate filter, the argmin selection loop
with its `(inf, 0)` sentinel, and the main peeling loop with its
book-keeping of `K`, `B_buffer` and the shrinking candidate dictionary — is
translated directly from the Python source.

Python's float division is modelled by total division on `ℚ` (so `0 / 0`
is `0` where numpy would silently produce `nan`; the relevant claims about
zero variance discuss this divergence explicitly).  `dict` iteration order
in Python 3.7+ is insertion order, and every dictionary built by the source
is built in ascending index order over the surviving keys, so a dictionary
is modelled as its ordered key list together with a lookup function.
`multiprocessing.Pool.map` applies a pure function to each element and
returns the results in input order, so both branches of
`find_most_independent_variable` denote the same list of
`(score, key)` pairs.
-/

namespace DirectLiNGAMSpec

/-- Arithmetic mean of a sample vector (`np.mean`). -/
def mean (v : List ℚ) : ℚ := v.sum / (v.length : ℚ)

/-- Biased covariance `np.cov(a, b, bias=1)[0][1]` of two equal-length
sample vectors: the mean of the products of the centred entries. -/
def cov (a b : List ℚ) : ℚ :=
  mean (List.zipWith (fun x y => (x - mean a) * (y - mean b)) a b)

/-- Biased variance `np.var(b)`: the mean of the squared centred entries. -/
def var (b : List ℚ) : ℚ :=
  mean (b.map fun x => (x - mean b) ^ 2)

/-- `calc_causal_effect(x_i, x_j)`: `np.cov(x_i, x_j, bias=1)[0][1] / np.var(x_j)`.
The Python source performs an unguarded float division: when `np.var(x_j)`
is `0` numpy silently returns `nan`/`inf` (a `RuntimeWarning`, not an
error); here the total division on `ℚ` returns the junk value `cov / 0 = 0`
instead, and no error is surfaced on either side. -/
def calc_causal_effect (x_i x_j : List ℚ) : ℚ :=
  cov x_i x_j / var x_j

/-- `calc_residual(x_i, x_j) = x_i - calc_causal_effect(x_i, x_j) * x_j`,
elementwise over the two sample vectors. -/
def calc_residual (x_i x_j : List ℚ) : List ℚ :=
  List.zipWith (fun x y => x - calc_causal_effect x_i x_j * y) x_i x_j

/-! ## The prior-knowledge candidate filter

`DirectLiNGAM.py` lines 176–184: starting from `candidate = {i: True}`,
a double loop over the remaining keys runs, for each pair `(i, j)`,

```
if candidate[i]:
    if prior_matrix[i][j] == 1: candidate[i] = False
    if prior_matrix[i][j] == 0: candidate[j] = False
```

The guard `if candidate[i]` means a pair is only acted upon while `i` is
still marked eligible at the moment the pair is reached. -/

/-- Functional update of a candidate flag table. -/
def updFlag (c : ℕ → Bool) (k : ℕ) (b : Bool) : ℕ → Bool :=
  fun x => if x = k then b else c x

/-- The body of the inner loop for one pair `(i, j)`. -/
def pairStep (prior : ℕ → ℕ → ℤ) (c : ℕ → Bool) (ij : ℕ × ℕ) : ℕ → Bool :=
  if c ij.1 then
    let c1 := if prior ij.1 ij.2 = 1 then updFlag c ij.1 false else c
    if prior ij.1 ij.2 = 0 then updFlag c1 ij.2 false else c1
  else c

/-- One iteration of the outer loop: sweep row `i` over all remaining `j`. -/
def rowStep (prior : ℕ → ℕ → ℤ) (rem : List ℕ) (c : ℕ → Bool) (i : ℕ) : ℕ → Bool :=
  rem.foldl (fun c' j => pairStep prior c' (i, j)) c

/-- The complete double loop: the final `candidate` table. -/
def priorFilter (prior : ℕ → ℕ → ℤ) (rem : List ℕ) : ℕ → Bool :=
  rem.foldl (rowStep prior rem) (fun _ => true)

/-- The spec's wording of eligibility (for the refinement comparison with
`priorFilter`): a pair `(i, j)` of remaining indices excludes `i` when the
prior entry is `1` and excludes `j` when it is `0`; a candidate is eligible
exactly when no pair excludes it. -/
def specEligible (prior : ℕ → ℕ → ℤ) (rem : List ℕ) (x : ℕ) : Prop :=
  ¬ ((∃ j ∈ rem, prior x j = 1) ∨ (∃ i ∈ rem, prior i x = 0))

instance (prior : ℕ → ℕ → ℤ) (rem : List ℕ) (x : ℕ) :
    Decidable (specEligible prior rem x) := by
  unfold specEligible; infer_instance

/-! ## `find_most_independent_variable`

Lines 136–146 of the source.  The function receives the (possibly
prior-filtered) candidate dictionary and the degree of parallelism, builds
the list `T` of `(score, key)` pairs — via `pool.map` when
`processes > 1`, via `map` otherwise, both in key order — and then runs

```
min = (float('inf'), 0)
for t in T:
    if t[0] < min[0]:
        min = t
return min[1]
```

The sentinel `float('inf')` is modelled by `⊤ : WithTop ℚ`. -/

/-- The body of the `for t in T` loop: `if t[0] < min[0]: min = t`. -/
def selStep (m : WithTop ℚ × ℕ) (t : ℚ × ℕ) : WithTop ℚ × ℕ :=
  if (t.1 : WithTop ℚ) < m.1 then ((t.1 : WithTop ℚ), t.2) else m

/-- The `for t in T` argmin loop, with its `(inf, 0)` sentinel. -/
def selectLoop (T : List (ℚ × ℕ)) : WithTop ℚ × ℕ :=
  T.foldl selStep ((⊤ : WithTop ℚ), 0)

/-- `find_most_independent_variable(X, processes)`.  The candidate
dictionary is split into its ordered key list and the score function
obtained by partially applying `calc_T_kernel_value` to it; `pool.map`
(the `processes > 1` branch) applies that pure function to each key and
returns the scores in key order, exactly as the sequential `map` branch
does. -/
def find_most_independent_variable (scoreOf : ℕ → ℚ) (keys : List ℕ)
    (processes : ℕ) : ℕ :=
  let T : List (ℚ × ℕ) :=
    if 1 < processes then (keys.map scoreOf).zip keys
    else (keys.map scoreOf).zip keys
  (selectLoop T).2

/-! ## The ordering engine `DirectLiNGAM`

Lines 167–202.  The state of the `while` loop is the candidate dictionary
(ordered key list `rem` plus lookup `vec`), the causal order `K`, and the
raw effect buffer `B_buffer`.  The score oracle
`T : (ℕ → List ℚ) → List ℕ → ℕ → ℚ` stands for `calc_T_kernel_value`,
receiving the candidate dictionary handed to
`find_most_independent_variable` (its lookup and its key list) and the
focused key. -/

structure EngState where
  rem : List ℕ
  vec : ℕ → List ℚ
  K : List ℕ
  Bbuf : ℕ → ℕ → ℚ

/-- The eligible keys of one round: all remaining keys when no prior matrix
is given, otherwise the keys of `X_used_prior`, i.e. the remaining keys the
candidate table still marks `True`. -/
def eligibleKeys (prior? : Option (ℕ → ℕ → ℤ)) (rem : List ℕ) : List ℕ :=
  match prior? with
  | none => rem
  | some prior => rem.filter (priorFilter prior rem)

/-- One iteration of the `while` loop: select `k` among the eligible keys,
append it to `K`, record `B_buffer[i][k] = calc_causal_effect(X[i], X[k])`
for every remaining `i ≠ k`, and replace the dictionary by the residualized
one without key `k`. -/
def engineStep (prior? : Option (ℕ → ℕ → ℤ))
    (T : (ℕ → List ℚ) → List ℕ → ℕ → ℚ) (processes : ℕ)
    (s : EngState) : EngState :=
  let elig := eligibleKeys prior? s.rem
  let k := find_most_independent_variable (T s.vec elig) elig processes
  { rem := s.rem.filter (fun i => i ≠ k)
    vec := fun i => if i ≠ k ∧ i ∈ s.rem then calc_residual (s.vec i) (s.vec k)
           else s.vec i
    K := s.K ++ [k]
    Bbuf := fun p q =>
      if q = k ∧ p ∈ s.rem ∧ p ≠ k then calc_causal_effect (s.vec p) (s.vec k)
      else s.Bbuf p q }

/-- The `while (len(X) > 0)` loop, with explicit fuel (the source loop
terminates after exactly `n` rounds whenever every selected key is still
remaining, which the theorems below establish). -/
def engineLoop (prior? : Option (ℕ → ℕ → ℤ))
    (T : (ℕ → List ℚ) → List ℕ → ℕ → ℚ) (processes : ℕ) :
    ℕ → EngState → EngState
  | 0, s => s
  | fuel + 1, s =>
      if s.rem = [] then s
      else engineLoop prior? T processes fuel (engineStep prior? T processes s)

/-- The state entering the loop: `X = {i: X[i] for i in range(n)}`,
`K = []`, `B_buffer = zeros((n, n))`. -/
def initState (n : ℕ) (X : ℕ → List ℚ) : EngState :=
  { rem := List.range n, vec := X, K := [], Bbuf := fun _ _ => 0 }

/-- The state after the `while` loop. -/
def finalState (n : ℕ) (X : ℕ → List ℚ) (prior? : Option (ℕ → ℕ → ℤ))
    (T : (ℕ → List ℚ) → List ℕ → ℕ → ℚ) (processes : ℕ) : EngState :=
  engineLoop prior? T processes n (initState n X)

/-- The state at the boundary of round `t`: `roundState 0` is the initial
state, `roundState (t+1)` the state after `t+1` iterations of the loop
body. -/
def roundState (n : ℕ) (X : ℕ → List ℚ) (prior? : Option (ℕ → ℕ → ℤ))
    (T : (ℕ → List ℚ) → List ℕ → ℕ → ℚ) (processes : ℕ) : ℕ → EngState
  | 0 => initState n X
  | t + 1 => engineStep prior? T processes (roundState n X prior? T processes t)

/-- `DirectLiNGAM(X, prior_matrix, processes)`: the causal order `K` and the
rearranged strictly lower-triangular matrix
`B[i][j] = B_buffer[K[i]][K[j]] if j < i else 0` (for `i, j < n`; as a
total function it is `0` outside the matrix). -/
def DirectLiNGAM (n : ℕ) (X : ℕ → List ℚ) (prior? : Option (ℕ → ℕ → ℤ))
    (T : (ℕ → List ℚ) → List ℕ → ℕ → ℚ) (processes : ℕ) :
    List ℕ × (ℕ → ℕ → ℚ) :=
  let s := finalState n X prior? T processes
  (s.K, fun i j =>
    if i < n ∧ j < n ∧ j < i then s.Bbuf (s.K.getD i 0) (s.K.getD j 0) else 0)

/-! ## Lemmas about the candidate filter -/

lemma updFlag_false_true {c : ℕ → Bool} {k x : ℕ}
    (h : updFlag c k false x = true) : c x = true := by
  unfold updFlag at h
  split at h
  · exact absurd h (by simp)
  · exact h

/-- `pairStep` on an explicit pair, with the `let` unfolded. -/
lemma pairStep_def (prior : ℕ → ℕ → ℤ) (c : ℕ → Bool) (a b : ℕ) :
    pairStep prior c (a, b) =
      if c a then
        (if prior a b = 0 then
          updFlag (if prior a b = 1 then updFlag c a false else c) b false
        else if prior a b = 1 then updFlag c a false else c)
      else c := rfl

/-- A pair step never resurrects a candidate: if `x` is marked after the
step, it was marked before. -/
lemma pairStep_mono {prior : ℕ → ℕ → ℤ} {c : ℕ → Bool} {ij : ℕ × ℕ} {x : ℕ}
    (h : pairStep prior c ij x = true) : c x = true := by
  obtain ⟨a, b⟩ := ij
  rw [pairStep_def] at h
  by_cases hg : c a = true
  · rw [if_pos hg] at h
    by_cases hz : prior a b = 0
    · rw [if_pos hz] at h
      have h' := updFlag_false_true h
      by_cases ho : prior a b = 1
      · rw [if_pos ho] at h'
        exact updFlag_false_true h'
      · rwa [if_neg ho] at h'
    · rw [if_neg hz] at h
      by_cases ho : prior a b = 1
      · rw [if_pos ho] at h
        exact updFlag_false_true h
      · rwa [if_neg ho] at h
  · rwa [if_neg hg] at h

/-- A fold of candidate-table transformers that never resurrect preserves
that property. -/
lemma foldl_flag_mono {α : Type} {g : (ℕ → Bool) → α → (ℕ → Bool)}
    (hg : ∀ c a x, g c a x = true → c x = true) :
    ∀ (l : List α) (c : ℕ → Bool) (x : ℕ), (l.foldl g c) x = true → c x = true := by
  intro l
  induction l with
  | nil => intro c x h; exact h
  | cons a l ih =>
      intro c x h
      exact hg c a x (ih (g c a) x h)

lemma rowStep_mono {prior : ℕ → ℕ → ℤ} {rem : List ℕ} {c : ℕ → Bool} {i x : ℕ}
    (h : rowStep prior rem c i x = true) : c x = true :=
  foldl_flag_mono (fun _ _ _ hx => pairStep_mono hx) rem c x h

/-- Once a candidate is cleared it stays cleared through a pair step. -/
lemma pairStep_false {prior : ℕ → ℕ → ℤ} {c : ℕ → Bool} (ij : ℕ × ℕ) {x : ℕ}
    (h : c x = false) : pairStep prior c ij x = false := by
  cases hx : pairStep prior c ij x with
  | false => rfl
  | true => exact absurd (pairStep_mono hx) (by simp [h])

lemma rowStep_false {prior : ℕ → ℕ → ℤ} {rem : List ℕ} {c : ℕ → Bool} (i : ℕ) {x : ℕ}
    (h : c x = false) : rowStep prior rem c i x = false := by
  cases hx : rowStep prior rem c i x with
  | false => rfl
  | true => exact absurd (rowStep_mono hx) (by simp [h])

/-- The `prior[i][j] == 1` rule is fully enforced within a row sweep: if `i`
survives its own row, no `j` in the sweep list carries a `1` against it. -/
lemma rowStep_true_no_one {prior : ℕ → ℕ → ℤ} :
    ∀ (jlist : List ℕ) (c : ℕ → Bool) (i : ℕ),
      rowStep prior jlist c i i = true → ∀ j ∈ jlist, prior i j ≠ 1 := by
  intro jlist
  induction jlist with
  | nil => intro c i _ j hj; exact absurd hj (List.not_mem_nil j)
  | cons j0 rest ih =>
      intro c i h j hj
      have hstep : rowStep prior (j0 :: rest) c i =
          rowStep prior rest (pairStep prior c (i, j0)) i := rfl
      rw [hstep] at h
      have hc' : pairStep prior c (i, j0) i = true := rowStep_mono h
      have hc : c i = true := pairStep_mono hc'
      rcases List.mem_cons.mp hj with rfl | hjrest
      · intro hone
        have hnotzero : ¬ prior i j = 0 := by rw [hone]; decide
        have : pairStep prior c (i, j) i = false := by
          rw [pairStep_def, if_pos hc, if_neg hnotzero, if_pos hone]
          simp [updFlag]
        rw [this] at hc'
        exact absurd hc' (by simp)
      · exact ih (pairStep prior c (i, j0)) i h j hjrest

/-- Lifting `rowStep_true_no_one` through the outer loop: a candidate that
the code leaves eligible has no remaining `j` with `prior[i][j] == 1`. -/
lemma foldl_rows_true_no_one {prior : ℕ → ℕ → ℤ} {rem : List ℕ} :
    ∀ (rows : List ℕ) (c : ℕ → Bool) (i : ℕ), i ∈ rows →
      (rows.foldl (rowStep prior rem) c) i = true → ∀ j ∈ rem, prior i j ≠ 1 := by
  intro rows
  induction rows with
  | nil => intro c i hi; exact absurd hi (List.not_mem_nil i)
  | cons r rest ih =>
      intro c i hi h
      rcases List.mem_cons.mp hi with rfl | hirest
      · have : rowStep prior rem c i i = true :=
          foldl_flag_mono (fun c j x hx => rowStep_mono hx) rest _ i h
        exact rowStep_true_no_one rem c i this
      · exact ih (rowStep prior rem c r) i hirest h

/-- A pair step taken over remaining indices cannot clear a candidate that
no prior rule disqualifies. -/
lemma pairStep_preserve {prior : ℕ → ℕ → ℤ} {rem : List ℕ} {c : ℕ → Bool} {x a b : ℕ}
    (ha : a ∈ rem) (hb : b ∈ rem)
    (h1 : ∀ j ∈ rem, prior x j ≠ 1) (h0 : ∀ i ∈ rem, prior i x ≠ 0)
    (hc : c x = true) : pairStep prior c (a, b) x = true := by
  rw [pairStep_def]
  by_cases hg : c a = true
  · rw [if_pos hg]
    by_cases hz : prior a b = 0
    · rw [if_pos hz]
      have hxb : x ≠ b := fun hxb => (h0 a ha) (hxb ▸ hz)
      have hone : prior a b ≠ 1 := by rw [hz]; decide
      simp only [updFlag, if_neg hxb, if_neg hone]
      exact hc
    · rw [if_neg hz]
      by_cases ho : prior a b = 1
      · rw [if_pos ho]
        have hxa : x ≠ a := fun hxa => (h1 b hb) (hxa ▸ ho)
        simp only [updFlag, if_neg hxa]
        exact hc
      · rw [if_neg ho]
        exact hc
  · rw [if_neg hg]
    exact hc

lemma rowStep_preserve {prior : ℕ → ℕ → ℤ} {rem : List ℕ} {x : ℕ}
    (h1 : ∀ j ∈ rem, prior x j ≠ 1) (h0 : ∀ i ∈ rem, prior i x ≠ 0) :
    ∀ (jlist : List ℕ), (∀ j ∈ jlist, j ∈ rem) → ∀ (c : ℕ → Bool) (a : ℕ), a ∈ rem →
      c x = true → rowStep prior jlist c a x = true := by
  intro jlist
  induction jlist with
  | nil => intro _ c a _ hc; exact hc
  | cons j0 rest ih =>
      intro hsub c a ha hc
      have hstep : rowStep prior (j0 :: rest) c a =
          rowStep prior rest (pairStep prior c (a, j0)) a := rfl
      rw [hstep]
      exact ih (fun j hj => hsub j (List.mem_cons_of_mem _ hj))
        (pairStep prior c (a, j0)) a ha
        (pairStep_preserve ha (hsub j0 (List.mem_cons_self _ _)) h1 h0 hc)

/-- A candidate disqualified by no rule is left eligible by the code's
filter (the code clears a flag only through one of the two prior rules). -/
lemma priorFilter_true_of_specEligible {prior : ℕ → ℕ → ℤ} {rem : List ℕ} {x : ℕ}
    (h : specEligible prior rem x) : priorFilter prior rem x = true := by
  unfold specEligible at h
  push_neg at h
  obtain ⟨h1, h0⟩ := h
  have h1' : ∀ j ∈ rem, prior x j ≠ 1 := h1
  have h0' : ∀ i ∈ rem, prior i x ≠ 0 := h0
  unfold priorFilter
  have main : ∀ (rows : List ℕ), (∀ r ∈ rows, r ∈ rem) → ∀ (c : ℕ → Bool),
      c x = true → (rows.foldl (rowStep prior rem) c) x = true := by
    intro rows
    induction rows with
    | nil => intro _ c hc; exact hc
    | cons r rest ih =>
        intro hsub c hc
        exact ih (fun a ha => hsub a (List.mem_cons_of_mem _ ha)) _
          (rowStep_preserve h1' h0' rem (fun j hj => hj) c r
            (hsub r (List.mem_cons_self _ _)) hc)
  exact main rem (fun r hr => hr) _ rfl

/-! ## Lemmas about diagonal prior entries -/

/-- Folding pair steps keeps a cleared candidate cleared. -/
lemma foldl_pairStep_false {prior : ℕ → ℕ → ℤ} {i x : ℕ} :
    ∀ (jlist : List ℕ) (c : ℕ → Bool), c x = false →
      (jlist.foldl (fun c' j => pairStep prior c' (i, j)) c) x = false := by
  intro jlist
  induction jlist with
  | nil => intro c hc; exact hc
  | cons j0 rest ih =>
      intro c hc
      exact ih (pairStep prior c (i, j0)) (pairStep_false (i, j0) hc)

/-- A diagonal prior entry in `{0, 1}` clears its own candidate when the
pair `(i, i)` is examined. -/
lemma pairStep_kill_diag {prior : ℕ → ℕ → ℤ} {c : ℕ → Bool} {i : ℕ}
    (hdiag : prior i i = 0 ∨ prior i i = 1) :
    pairStep prior c (i, i) i = false := by
  by_cases hg : c i = true
  · rw [pairStep_def, if_pos hg]
    rcases hdiag with h0 | h1
    · have hone : prior i i ≠ 1 := by rw [h0]; decide
      rw [if_pos h0, if_neg hone]
      simp [updFlag]
    · have hzero : prior i i ≠ 0 := by rw [h1]; decide
      rw [if_neg hzero, if_pos h1]
      simp [updFlag]
  · rw [pairStep_def, if_neg hg]
    exact Bool.eq_false_iff.mpr hg

/-- A diagonal prior entry in `{0, 1}` clears its own candidate during the
sweep of its row: after row `i` runs (with `i` in the sweep list), `i` is
cleared. -/
lemma rowStep_kill_diag {prior : ℕ → ℕ → ℤ} {i : ℕ}
    (hdiag : prior i i = 0 ∨ prior i i = 1) :
    ∀ (jlist : List ℕ) (c : ℕ → Bool), i ∈ jlist →
      rowStep prior jlist c i i = false := by
  intro jlist
  induction jlist with
  | nil => intro c hi; exact absurd hi (List.not_mem_nil i)
  | cons j0 rest ih =>
      intro c hi
      have hstep : rowStep prior (j0 :: rest) c i =
          rowStep prior rest (pairStep prior c (i, j0)) i := rfl
      rw [hstep]
      rcases List.mem_cons.mp hi with rfl | hirest
      · exact foldl_pairStep_false rest _ (pairStep_kill_diag hdiag)
      · exact ih (pairStep prior c (i, j0)) hirest

/-- Folding row steps keeps a cleared candidate cleared. -/
lemma foldl_rowStep_false {prior : ℕ → ℕ → ℤ} {rem : List ℕ} {x : ℕ} :
    ∀ (rows : List ℕ) (c : ℕ → Bool), c x = false →
      (rows.foldl (rowStep prior rem) c) x = false := by
  intro rows
  induction rows with
  | nil => intro c hc; exact hc
  | cons r rest ih =>
      intro c hc
      exact ih (rowStep prior rem c r) (rowStep_false r hc)

/-- When every prior entry lies in `{0, 1}`, the filter clears every
remaining candidate. -/
lemma priorFilter_all01_false {prior : ℕ → ℕ → ℤ}
    (h01 : ∀ i j, prior i j = 0 ∨ prior i j = 1) (rem : List ℕ) :
    ∀ i ∈ rem, priorFilter prior rem i = false := by
  have main : ∀ (rows : List ℕ) (c : ℕ → Bool) (i : ℕ), i ∈ rows → i ∈ rem →
      (rows.foldl (rowStep prior rem) c) i = false := by
    intro rows
    induction rows with
    | nil => intro c i hi; exact absurd hi (List.not_mem_nil i)
    | cons r rest ih =>
        intro c i hi hirem
        rcases List.mem_cons.mp hi with rfl | hirest
        · exact foldl_rowStep_false rest _ (rowStep_kill_diag (h01 i i) rem c hirem)
        · exact ih (rowStep prior rem c r) i hirest hirem
  intro i hi
  exact main rem _ i hi hi

/-! ## Lemmas about the argmin loop -/

/-- Characterisation of the strict-improvement fold: starting from any
accumulator, either no element beats the accumulator and it comes back
unchanged, or the fold returns the first element attaining the minimum of
the elements strictly below the accumulator. -/
lemma foldl_selStep_spec :
    ∀ (T : List (ℚ × ℕ)) (acc : WithTop ℚ × ℕ),
      (T.foldl selStep acc = acc ∧ ∀ t ∈ T, acc.1 ≤ (t.1 : WithTop ℚ))
      ∨ (∃ i, ∃ hi : i < T.length,
          T.foldl selStep acc = (((T.get ⟨i, hi⟩).1 : WithTop ℚ), (T.get ⟨i, hi⟩).2)
          ∧ ((T.get ⟨i, hi⟩).1 : WithTop ℚ) < acc.1
          ∧ (∀ t ∈ T, ((T.get ⟨i, hi⟩).1 : ℚ) ≤ t.1)
          ∧ ∀ j, ∀ hj : j < T.length, j < i →
              (T.get ⟨i, hi⟩).1 < (T.get ⟨j, hj⟩).1) := by
  intro T
  induction T with
  | nil =>
      intro acc
      exact Or.inl ⟨rfl, fun t ht => absurd ht (List.not_mem_nil t)⟩
  | cons t rest ih =>
      intro acc
      have hstep : (t :: rest).foldl selStep acc = rest.foldl selStep (selStep acc t) := rfl
      by_cases hlt : (t.1 : WithTop ℚ) < acc.1
      · have hacc' : selStep acc t = ((t.1 : WithTop ℚ), t.2) := if_pos hlt
        rcases ih (selStep acc t) with ⟨heq, hmin⟩ | ⟨i, hi, heq, hlt', hmin, hfirst⟩
        · refine Or.inr ⟨0, Nat.succ_pos _, ?_, hlt, ?_, ?_⟩
          · rw [hstep, heq, hacc']
            exact rfl
          · intro u hu
            rcases List.mem_cons.mp hu with rfl | hurest
            · exact le_refl _
            · have := hmin u hurest
              rw [hacc'] at this
              have h2 : (t.1 : WithTop ℚ) ≤ (u.1 : WithTop ℚ) := this
              show (t.1 : ℚ) ≤ u.1
              exact_mod_cast h2
          · intro j hj hj0
            exact absurd hj0 (Nat.not_lt_zero _)
        · refine Or.inr ⟨i + 1, Nat.succ_lt_succ hi, ?_, ?_, ?_, ?_⟩
          · rw [hstep, heq]
            exact rfl
          · rw [hacc'] at hlt'
            exact lt_trans hlt' hlt
          · intro u hu
            rcases List.mem_cons.mp hu with rfl | hurest
            · rw [hacc'] at hlt'
              have h2 : ((rest.get ⟨i, hi⟩).1 : WithTop ℚ) < (u.1 : WithTop ℚ) := hlt'
              exact le_of_lt (show ((rest.get ⟨i, hi⟩).1 : ℚ) < u.1 by exact_mod_cast h2)
            · exact hmin u hurest
          · intro j hj hji
            cases j with
            | zero =>
                rw [hacc'] at hlt'
                have h2 : ((rest.get ⟨i, hi⟩).1 : WithTop ℚ) < (t.1 : WithTop ℚ) := hlt'
                show ((rest.get ⟨i, hi⟩).1 : ℚ) < t.1
                exact_mod_cast h2
            | succ j' =>
                exact hfirst j' (Nat.lt_of_succ_lt_succ hj) (Nat.lt_of_succ_lt_succ hji)
      · have hacc' : selStep acc t = acc := if_neg hlt
        rcases ih (selStep acc t) with ⟨heq, hmin⟩ | ⟨i, hi, heq, hlt', hmin, hfirst⟩
        · refine Or.inl ⟨?_, ?_⟩
          · rw [hstep, heq, hacc']
          · intro u hu
            rcases List.mem_cons.mp hu with rfl | hurest
            · exact le_of_not_lt hlt
            · have := hmin u hurest
              rwa [hacc'] at this
        · refine Or.inr ⟨i + 1, Nat.succ_lt_succ hi, ?_, ?_, ?_, ?_⟩
          · rw [hstep, heq]
            exact rfl
          · rw [hacc'] at hlt'
            exact hlt'
          · intro u hu
            rcases List.mem_cons.mp hu with rfl | hurest
            · rw [hacc'] at hlt'
              have hcast : ((rest.get ⟨i, hi⟩).1 : WithTop ℚ) < (u.1 : WithTop ℚ) :=
                lt_of_lt_of_le hlt' (le_of_not_lt hlt)
              exact le_of_lt (show ((rest.get ⟨i, hi⟩).1 : ℚ) < u.1 by exact_mod_cast hcast)
            · exact hmin u hurest
          · intro j hj hji
            cases j with
            | zero =>
                rw [hacc'] at hlt'
                have hcast : ((rest.get ⟨i, hi⟩).1 : WithTop ℚ) < (t.1 : WithTop ℚ) :=
                  lt_of_lt_of_le hlt' (le_of_not_lt hlt)
                show ((rest.get ⟨i, hi⟩).1 : ℚ) < t.1
                exact_mod_cast hcast
            | succ j' =>
                exact hfirst j' (Nat.lt_of_succ_lt_succ hj) (Nat.lt_of_succ_lt_succ hji)

/-- Both branches of the `processes` conditional build the same score list,
so the selector is the argmin loop over `(scores, keys)` pairs. -/
lemma find_most_independent_variable_eq (scoreOf : ℕ → ℚ) (keys : List ℕ)
    (processes : ℕ) :
    find_most_independent_variable scoreOf keys processes =
      (selectLoop ((keys.map scoreOf).zip keys)).2 := by
  unfold find_most_independent_variable
  rw [ite_self]

/-- Entries of the zipped score list. -/
lemma zip_scores_get (scoreOf : ℕ → ℚ) (keys : List ℕ) (i : ℕ)
    (hik : i < keys.length) (hi : i < ((keys.map scoreOf).zip keys).length) :
    ((keys.map scoreOf).zip keys).get ⟨i, hi⟩ =
      (scoreOf (keys.get ⟨i, hik⟩), keys.get ⟨i, hik⟩) := by
  simp [List.get_eq_getElem, List.getElem_zip, List.getElem_map]

/-! ## Claim C1 -/

/-- Prior matrix witnessing the order dependence of the filter: among the
remaining indices `0, 1, 2`, row `0` is `(-1, 1, 0)` and all other entries
are `-1`. -/
def c1Prior : ℕ → ℕ → ℤ := fun i j =>
  if i = 0 ∧ j = 1 then 1 else if i = 0 ∧ j = 2 then 0 else -1

/-- C1, counterexample.  The pair `(0, 2)` carries the prior entry `0`, so
under the claim's reading candidate `2` is excluded; but the pair `(0, 1)`
carries a `1` which clears `0` first, and the source's guard
`if candidate[i]` then skips the rest of row `0`, so the code leaves `2`
eligible.  Eligibility is therefore not "exactly when no pair excludes it"
and does depend on the iteration order. -/
theorem priorFilter_pair_rule_cex :
    priorFilter c1Prior [0, 1, 2] 2 = true ∧ ¬ specEligible c1Prior [0, 1, 2] 2 := by
  constructor
  · decide
  · decide

/-- C1, amended.  A pair `(i, j)` of remaining indices is acted on only
while `i` is still eligible at the moment the pair is examined (the
`if candidate[i]` guard), so only one direction of the claim holds, plus
full enforcement of the `1`-rule: a candidate the filter leaves eligible
has no remaining `j` with `prior[i][j] = 1`, and a candidate excluded by no
pair at all is always left eligible; but a candidate hit only by a `0`
entry in the row of an already-disqualified index can remain eligible, as
the counterexample shows. -/
theorem priorFilter_guarded_rules (prior : ℕ → ℕ → ℤ) (rem : List ℕ) (i : ℕ)
    (hi : i ∈ rem) :
    (priorFilter prior rem i = true → ∀ j ∈ rem, prior i j ≠ 1)
    ∧ (specEligible prior rem i → priorFilter prior rem i = true) :=
  ⟨fun h => foldl_rows_true_no_one rem (fun _ => true) i hi h,
   fun h => priorFilter_true_of_specEligible h⟩

/-- C1, witness for `priorFilter_guarded_rules` at the all-`(-1)` prior on
remaining indices `[0, 1]` and candidate `0`. -/
theorem priorFilter_guarded_rules_witness :
    priorFilter (fun _ _ => (-1 : ℤ)) [0, 1] 0 = true
    ∧ (∀ j ∈ [0, 1], (fun _ _ => (-1 : ℤ)) 0 j ≠ 1) := by
  have h := priorFilter_guarded_rules (fun _ _ => (-1 : ℤ)) [0, 1] 0 (by decide)
  have helig : priorFilter (fun _ _ => (-1 : ℤ)) [0, 1] 0 = true :=
    h.2 (by decide)
  exact ⟨helig, h.1 helig⟩

/-! ## Claim C3 -/

/-- C3.  Diagonal prior entries disqualify their own variable: if `i` is
still marked eligible when the pair `(i, i)` is examined and
`prior[i][i] ∈ {0, 1}`, the pair step clears `i`; consequently a prior
matrix all of whose entries lie in `{0, 1}` leaves no remaining candidate
eligible in any round. -/
theorem prior_diag_disqualifies :
    (∀ (prior : ℕ → ℕ → ℤ) (c : ℕ → Bool) (i : ℕ), c i = true →
        (prior i i = 0 ∨ prior i i = 1) → pairStep prior c (i, i) i = false)
    ∧ ∀ (prior : ℕ → ℕ → ℤ) (rem : List ℕ),
        (∀ i j, prior i j = 0 ∨ prior i j = 1) →
        ∀ i ∈ rem, priorFilter prior rem i = false :=
  ⟨fun _ _ _ _ hdiag => pairStep_kill_diag hdiag,
   fun _ rem h01 => priorFilter_all01_false h01 rem⟩

/-- C3, witness for `prior_diag_disqualifies` at the all-ones prior with
remaining indices `[0, 1]`. -/
theorem prior_diag_disqualifies_witness :
    pairStep (fun _ _ => (1 : ℤ)) (fun _ => true) (0, 0) 0 = false
    ∧ priorFilter (fun _ _ => (1 : ℤ)) [0, 1] 0 = false :=
  ⟨prior_diag_disqualifies.1 (fun _ _ => (1 : ℤ)) (fun _ => true) 0 rfl (Or.inr rfl),
   prior_diag_disqualifies.2 (fun _ _ => (1 : ℤ)) [0, 1] (fun _ _ => Or.inr rfl) 0
     (by decide)⟩

/-! ## Claim C8 -/

/-- C8.  For a non-empty candidate key list, the selector returns a key of
minimal score, and among the keys attaining the minimum it returns the one
encountered first in the list's (dictionary-iteration) order: all strictly
earlier keys have strictly larger scores. -/
theorem find_most_independent_argmin (scoreOf : ℕ → ℚ) (keys : List ℕ)
    (processes : ℕ) (hne : keys ≠ []) :
    ∃ i, ∃ hi : i < keys.length,
      find_most_independent_variable scoreOf keys processes = keys.get ⟨i, hi⟩
      ∧ (∀ j ∈ keys, scoreOf (keys.get ⟨i, hi⟩) ≤ scoreOf j)
      ∧ ∀ j, ∀ hj : j < keys.length, j < i →
          scoreOf (keys.get ⟨i, hi⟩) < scoreOf (keys.get ⟨j, hj⟩) := by
  have hTlen : ((keys.map scoreOf).zip keys).length = keys.length := by
    simp
  rcases foldl_selStep_spec ((keys.map scoreOf).zip keys) ((⊤ : WithTop ℚ), 0) with
    ⟨_, hmin⟩ | ⟨i, hi, heq, _, hmin, hfirst⟩
  · exfalso
    have hTne : (keys.map scoreOf).zip keys ≠ [] := by
      intro h
      apply hne
      rw [← List.length_eq_zero, ← hTlen, h]
      rfl
    obtain ⟨t, ht⟩ := List.exists_mem_of_ne_nil _ hTne
    have htop := hmin t ht
    exact absurd htop (by simp)
  · have hik : i < keys.length := hTlen ▸ hi
    refine ⟨i, hik, ?_, ?_, ?_⟩
    · rw [find_most_independent_variable_eq]
      show (((keys.map scoreOf).zip keys).foldl selStep ((⊤ : WithTop ℚ), 0)).2 = _
      rw [heq, zip_scores_get scoreOf keys i hik hi]
    · intro j hj
      obtain ⟨n, hn⟩ := List.mem_iff_get.mp hj
      have hnT : (n : ℕ) < ((keys.map scoreOf).zip keys).length := by
        rw [hTlen]; exact n.isLt
      have hmem : ((keys.map scoreOf).zip keys).get ⟨n, hnT⟩ ∈
          (keys.map scoreOf).zip keys := List.get_mem _ _ _
      have := hmin _ hmem
      rw [zip_scores_get scoreOf keys i hik hi,
        zip_scores_get scoreOf keys n n.isLt hnT] at this
      rw [← hn]
      simpa [List.get_eq_getElem] using this
    · intro j hj hji
      have hjT : j < ((keys.map scoreOf).zip keys).length := by
        rw [hTlen]; exact hj
      have := hfirst j hjT hji
      rwa [zip_scores_get scoreOf keys i hik hi,
        zip_scores_get scoreOf keys j hj hjT] at this

/-- C8, witness for `find_most_independent_argmin` on the key list `[5, 7]`
with constant scores. -/
theorem find_most_independent_argmin_witness :
    ∃ i, ∃ hi : i < ([5, 7] : List ℕ).length,
      find_most_independent_variable (fun _ => (0 : ℚ)) [5, 7] 1 =
        ([5, 7] : List ℕ).get ⟨i, hi⟩
      ∧ (∀ j ∈ ([5, 7] : List ℕ),
          (fun _ => (0 : ℚ)) (([5, 7] : List ℕ).get ⟨i, hi⟩) ≤ (fun _ => (0 : ℚ)) j)
      ∧ ∀ j, ∀ hj : j < ([5, 7] : List ℕ).length, j < i →
          (fun _ => (0 : ℚ)) (([5, 7] : List ℕ).get ⟨i, hi⟩) <
            (fun _ => (0 : ℚ)) (([5, 7] : List ℕ).get ⟨j, hj⟩) :=
  find_most_independent_argmin (fun _ => (0 : ℚ)) [5, 7] 1 (by decide)

/-! ## Claim C7 -/

/-- Both engine steps agree whatever the degree of parallelism, since the
two branches of the selector build the same score list. -/
lemma engineStep_processes (prior? : Option (ℕ → ℕ → ℤ))
    (T : (ℕ → List ℚ) → List ℕ → ℕ → ℚ) (p p' : ℕ) (s : EngState) :
    engineStep prior? T p s = engineStep prior? T p' s := by
  simp only [engineStep, find_most_independent_variable_eq]

lemma engineLoop_processes (prior? : Option (ℕ → ℕ → ℤ))
    (T : (ℕ → List ℚ) → List ℕ → ℕ → ℚ) (p p' : ℕ) :
    ∀ (fuel : ℕ) (s : EngState),
      engineLoop prior? T p fuel s = engineLoop prior? T p' fuel s := by
  intro fuel
  induction fuel with
  | zero => intro s; rfl
  | succ fuel ih =>
      intro s
      show (if s.rem = [] then s else engineLoop prior? T p fuel (engineStep prior? T p s))
        = (if s.rem = [] then s else engineLoop prior? T p' fuel (engineStep prior? T p' s))
      by_cases hrem : s.rem = []
      · rw [if_pos hrem, if_pos hrem]
      · rw [if_neg hrem, if_neg hrem, engineStep_processes prior? T p p' s, ih]

/-- C7.  Running the candidate selector with any degree of parallelism
`k > 1` returns the same index as running it sequentially, and hence the
engine returns the same order and coefficient matrix. -/
theorem processes_equiv (scoreOf : ℕ → ℚ) (keys : List ℕ) (n : ℕ)
    (X : ℕ → List ℚ) (prior? : Option (ℕ → ℕ → ℤ))
    (T : (ℕ → List ℚ) → List ℕ → ℕ → ℚ) (k : ℕ) (hk : 1 < k) :
    find_most_independent_variable scoreOf keys k =
      find_most_independent_variable scoreOf keys 1
    ∧ DirectLiNGAM n X prior? T k = DirectLiNGAM n X prior? T 1 := by
  constructor
  · rw [find_most_independent_variable_eq, find_most_independent_variable_eq]
  · unfold DirectLiNGAM finalState
    rw [engineLoop_processes prior? T k 1]

/-- C7, witness for `processes_equiv` at `k = 2` on a two-variable input. -/
theorem processes_equiv_witness :
    find_most_independent_variable (fun _ => (0 : ℚ)) [0, 1] 2 =
      find_most_independent_variable (fun _ => (0 : ℚ)) [0, 1] 1
    ∧ DirectLiNGAM 2 (fun _ => [1, 2]) none (fun _ _ _ => 0) 2 =
        DirectLiNGAM 2 (fun _ => [1, 2]) none (fun _ _ _ => 0) 1 :=
  processes_equiv (fun _ => (0 : ℚ)) [0, 1] 2 (fun _ => [1, 2]) none
    (fun _ _ _ => 0) 2 (by decide)

/-! ## Lemmas for the residual algebra -/

/-- Fusing a zip of a zip over the same right list. -/
lemma zipWith_fused (f g : ℚ → ℚ → ℚ) :
    ∀ (a b : List ℚ), List.zipWith g (List.zipWith f a b) b =
      List.zipWith (fun x y => g (f x y) y) a b := by
  intro a
  induction a with
  | nil => intro b; simp
  | cons x a ih =>
      intro b
      cases b with
      | nil => simp
      | cons y b => simp [ih]

/-- Pointwise-equal binary functions zip equally. -/
lemma zipWith_ext (F G : ℚ → ℚ → ℚ) (h : ∀ x y, F x y = G x y) :
    ∀ (a b : List ℚ), List.zipWith F a b = List.zipWith G a b := by
  intro a
  induction a with
  | nil => intro b; simp
  | cons x a ih =>
      intro b
      cases b with
      | nil => simp
      | cons y b => simp [h, ih]

lemma sum_zipWith_sub (F G : ℚ → ℚ → ℚ) :
    ∀ (a b : List ℚ),
      (List.zipWith (fun x y => F x y - G x y) a b).sum =
        (List.zipWith F a b).sum - (List.zipWith G a b).sum := by
  intro a
  induction a with
  | nil => intro b; simp
  | cons x a ih =>
      intro b
      cases b with
      | nil => simp
      | cons y b =>
          simp only [List.zipWith_cons_cons, List.sum_cons, ih]
          ring

lemma sum_zipWith_const_mul (c : ℚ) (F : ℚ → ℚ → ℚ) :
    ∀ (a b : List ℚ),
      (List.zipWith (fun x y => c * F x y) a b).sum =
        c * (List.zipWith F a b).sum := by
  intro a
  induction a with
  | nil => intro b; simp
  | cons x a ih =>
      intro b
      cases b with
      | nil => simp
      | cons y b =>
          simp only [List.zipWith_cons_cons, List.sum_cons, ih]
          ring

/-- A zip that only reads its right argument is a map, for equal lengths. -/
lemma zipWith_right_only (H : ℚ → ℚ) :
    ∀ (a b : List ℚ), a.length = b.length →
      List.zipWith (fun _ y => H y) a b = b.map H := by
  intro a
  induction a with
  | nil =>
      intro b hb
      have hb0 : b = [] := List.length_eq_zero.mp (by simpa using hb.symm)
      rw [hb0]
      rfl
  | cons x a ih =>
      intro b hb
      cases b with
      | nil => exact absurd hb (by simp)
      | cons y b =>
          simp only [List.zipWith_cons_cons, List.map_cons]
          rw [ih b (by simpa using hb)]

lemma sum_zipWith_linear (c : ℚ) :
    ∀ (a b : List ℚ), a.length = b.length →
      (List.zipWith (fun x y => x - c * y) a b).sum = a.sum - c * b.sum := by
  intro a
  induction a with
  | nil =>
      intro b hb
      have hb0 : b = [] := List.length_eq_zero.mp (by simpa using hb.symm)
      rw [hb0]
      simp
  | cons x a ih =>
      intro b hb
      cases b with
      | nil => exact absurd hb (by simp)
      | cons y b =>
          simp only [List.zipWith_cons_cons, List.sum_cons, ih b (by simpa using hb)]
          ring

/-- Length of the residual vector. -/
lemma calc_residual_length (a b : List ℚ) (ha : a.length = b.length) :
    (calc_residual a b).length = a.length := by
  unfold calc_residual
  rw [List.length_zipWith, ha, min_self]

/-- Mean of the residual vector: residualizing shifts the mean linearly. -/
lemma mean_calc_residual (a b : List ℚ) (ha : a.length = b.length) :
    mean (calc_residual a b) = mean a - calc_causal_effect a b * mean b := by
  unfold mean
  rw [calc_residual_length a b ha]
  unfold calc_residual
  rw [sum_zipWith_linear _ a b ha, sub_div, mul_div_assoc, ha]

/-! ## Claim C9 -/

/-- C9.  Residual orthogonality: over the exact rationals,
`calc_causal_effect(calc_residual(a, b), b) = 0` for equal-length vectors
with nonzero variance of `b` — the residual carries no remaining linear
effect of `b`. -/
theorem causal_effect_residual_zero (a b : List ℚ) (ha : a.length = b.length)
    (hvar : var b ≠ 0) :
    calc_causal_effect (calc_residual a b) b = 0 := by
  have hmr := mean_calc_residual a b ha
  have hn : ((b.length : ℚ)) ≠ 0 := by
    intro h0
    apply hvar
    have hb0 : b = [] := List.length_eq_zero.mp (by exact_mod_cast h0)
    rw [hb0]
    simp [var, mean]
  have hcov_ab : cov a b =
      (List.zipWith (fun x y => (x - mean a) * (y - mean b)) a b).sum /
        (b.length : ℚ) := by
    unfold cov mean
    rw [List.length_zipWith, ha, min_self]
  have hvar_b : var b =
      (b.map fun x => (x - mean b) ^ 2).sum / (b.length : ℚ) := by
    unfold var mean
    rw [List.length_map]
  have key : List.zipWith
        (fun x y => (x - mean (calc_residual a b)) * (y - mean b))
        (calc_residual a b) b
      = List.zipWith (fun x y =>
          (x - mean a) * (y - mean b) -
            calc_causal_effect a b * ((y - mean b) ^ 2)) a b := by
    simp only [hmr]
    rw [show calc_residual a b =
      List.zipWith (fun x y => x - calc_causal_effect a b * y) a b from rfl]
    rw [zipWith_fused]
    apply zipWith_ext
    intro x y
    ring
  have mean_def : ∀ v : List ℚ, mean v = v.sum / (v.length : ℚ) := fun _ => rfl
  have hcov : cov (calc_residual a b) b = 0 := by
    unfold cov
    rw [key]
    rw [mean_def]
    rw [sum_zipWith_sub (fun x y => (x - mean a) * (y - mean b))
      (fun x y => calc_causal_effect a b * ((y - mean b) ^ 2)) a b]
    rw [sum_zipWith_const_mul (calc_causal_effect a b)
      (fun _ y => (y - mean b) ^ 2) a b]
    rw [zipWith_right_only (fun y => (y - mean b) ^ 2) a b ha]
    rw [List.length_zipWith, ha, min_self]
    rw [sub_div, mul_div_assoc, ← hcov_ab, ← hvar_b]
    show cov a b - cov a b / var b * var b = 0
    rw [div_mul_cancel₀ _ hvar, sub_self]
  show cov (calc_residual a b) b / var b = 0
  rw [hcov, zero_div]

/-- C9, witness for `causal_effect_residual_zero` at `a = [1, 2]`,
`b = [1, 3]`. -/
theorem causal_effect_residual_zero_witness :
    ([1, 2] : List ℚ).length = ([1, 3] : List ℚ).length
    ∧ var [1, 3] ≠ 0
    ∧ calc_causal_effect (calc_residual [1, 2] [1, 3]) [1, 3] = 0 :=
  ⟨rfl, by norm_num [var, mean],
   causal_effect_residual_zero [1, 2] [1, 3] rfl (by norm_num [var, mean])⟩

/-! ## Claim C5 -/

/-- C5.  The returned coefficient matrix is the raw effect buffer
re-indexed through the discovered order `K` below the diagonal and zero on
and above it: `B[row][col] = B_buffer[K[row]][K[col]]` for `col < row`
(within the matrix bounds) and `B[row][col] = 0` whenever `row ≤ col`. -/
theorem coeff_matrix_lower_triangular (n : ℕ) (X : ℕ → List ℚ)
    (prior? : Option (ℕ → ℕ → ℤ)) (T : (ℕ → List ℚ) → List ℕ → ℕ → ℚ)
    (processes : ℕ) (row col : ℕ) :
    (col < row → row < n → col < n →
      (DirectLiNGAM n X prior? T processes).2 row col =
        (finalState n X prior? T processes).Bbuf
          ((DirectLiNGAM n X prior? T processes).1.getD row 0)
          ((DirectLiNGAM n X prior? T processes).1.getD col 0))
    ∧ (row ≤ col → (DirectLiNGAM n X prior? T processes).2 row col = 0) := by
  constructor
  · intro h1 h2 h3
    show (if row < n ∧ col < n ∧ col < row then
        (finalState n X prior? T processes).Bbuf
          ((finalState n X prior? T processes).K.getD row 0)
          ((finalState n X prior? T processes).K.getD col 0)
      else 0) = _
    rw [if_pos ⟨h2, h3, h1⟩]
    rfl
  · intro hle
    show (if row < n ∧ col < n ∧ col < row then
        (finalState n X prior? T processes).Bbuf
          ((finalState n X prior? T processes).K.getD row 0)
          ((finalState n X prior? T processes).K.getD col 0)
      else 0) = 0
    rw [if_neg]
    rintro ⟨_, _, hcr⟩
    omega

/-- C5, witness for `coeff_matrix_lower_triangular` at `n = 2` with entry
`(1, 0)` below and `(0, 1)` above the diagonal. -/
theorem coeff_matrix_lower_triangular_witness :
    (DirectLiNGAM 2 (fun _ => [1, 2]) none (fun _ _ _ => 0) 1).2 1 0 =
      (finalState 2 (fun _ => [1, 2]) none (fun _ _ _ => 0) 1).Bbuf
        ((DirectLiNGAM 2 (fun _ => [1, 2]) none (fun _ _ _ => 0) 1).1.getD 1 0)
        ((DirectLiNGAM 2 (fun _ => [1, 2]) none (fun _ _ _ => 0) 1).1.getD 0 0)
    ∧ (DirectLiNGAM 2 (fun _ => [1, 2]) none (fun _ _ _ => 0) 1).2 0 1 = 0 :=
  ⟨(coeff_matrix_lower_triangular 2 (fun _ => [1, 2]) none (fun _ _ _ => 0) 1 1 0).1
      (by decide) (by decide) (by decide),
   (coeff_matrix_lower_triangular 2 (fun _ => [1, 2]) none (fun _ _ _ => 0) 1 0 1).2
      (by decide)⟩

/-! ## Claim C6 -/

/-- C6 (code bug).  At a zero-variance second argument the source's
`calc_causal_effect` and `calc_residual` perform an unguarded division by
`np.var(x_j) = 0`: numpy emits only a `RuntimeWarning` and silently
returns `nan` (here modelled by total division, which returns the junk
value `0`), and `calc_residual` propagates that junk into its output.  No
error of any kind is raised on the path, contradicting the claim that the
condition is surfaced as an error. -/
theorem zero_variance_no_error :
    var [3, 3] = 0
    ∧ calc_causal_effect [1, 2] [3, 3] = cov [1, 2] [3, 3] / 0
    ∧ calc_residual [1, 2] [3, 3] = [1, 2] := by
  have hv : var [3, 3] = 0 := by norm_num [var, mean]
  refine ⟨hv, ?_, ?_⟩
  · show cov [1, 2] [3, 3] / var [3, 3] = cov [1, 2] [3, 3] / 0
    rw [hv]
  · norm_num [calc_residual, calc_causal_effect, cov, var, mean]

/-! ## Claim C2 -/

/-- Prior matrix making both of two variables ineligible in the first
round: each variable carries a `1` against the other. -/
def c2Prior : ℕ → ℕ → ℤ := fun i j => if i = j then -1 else 1

/-- C2 (code bug).  When the prior filter leaves no eligible candidate the
source does not abort: `find_most_independent_variable` receives an empty
dictionary, its loop never runs, and it returns the index component `0` of
the `(inf, 0)` sentinel — an index outside the (empty) eligible set.  On
the two-variable input with `c2Prior` the first round's eligible set is
empty, yet the engine silently returns the order `[0, 1]` with no
diagnostic (and in runs where variable `0` has already been removed, the
Python code instead dies with a `KeyError` at `X[k]`). -/
theorem empty_eligible_selects_sentinel :
    eligibleKeys (some c2Prior) [0, 1] = []
    ∧ find_most_independent_variable (fun _ => (0 : ℚ)) [] 1 = 0
    ∧ (DirectLiNGAM 2 (fun _ => [1, 2]) (some c2Prior) (fun _ _ _ => 0) 1).1
        = [0, 1] := by
  refine ⟨by decide, rfl, by decide⟩

/-! ## Lemmas about the ordering loop -/

/-- The key selected in the current round. -/
def chosenKey (prior? : Option (ℕ → ℕ → ℤ))
    (T : (ℕ → List ℚ) → List ℕ → ℕ → ℚ) (processes : ℕ) (s : EngState) : ℕ :=
  find_most_independent_variable (T s.vec (eligibleKeys prior? s.rem))
    (eligibleKeys prior? s.rem) processes

lemma engineStep_rem (prior? : Option (ℕ → ℕ → ℤ))
    (T : (ℕ → List ℚ) → List ℕ → ℕ → ℚ) (processes : ℕ) (s : EngState) :
    (engineStep prior? T processes s).rem =
      s.rem.filter (fun i => i ≠ chosenKey prior? T processes s) := rfl

lemma engineStep_K (prior? : Option (ℕ → ℕ → ℤ))
    (T : (ℕ → List ℚ) → List ℕ → ℕ → ℚ) (processes : ℕ) (s : EngState) :
    (engineStep prior? T processes s).K =
      s.K ++ [chosenKey prior? T processes s] := rfl

/-- The selector always returns one of its candidate keys when there is at
least one. -/
lemma find_most_independent_mem (scoreOf : ℕ → ℚ) (keys : List ℕ)
    (processes : ℕ) (hne : keys ≠ []) :
    find_most_independent_variable scoreOf keys processes ∈ keys := by
  have hTlen : ((keys.map scoreOf).zip keys).length = keys.length := by simp
  rcases foldl_selStep_spec ((keys.map scoreOf).zip keys) ((⊤ : WithTop ℚ), 0) with
    ⟨_, hmin⟩ | ⟨i, hi, heq, _, _, _⟩
  · exfalso
    have hTne : (keys.map scoreOf).zip keys ≠ [] := by
      intro h
      apply hne
      rw [← List.length_eq_zero, ← hTlen, h]
      rfl
    obtain ⟨t, ht⟩ := List.exists_mem_of_ne_nil _ hTne
    exact absurd (hmin t ht) (by simp)
  · have hik : i < keys.length := hTlen ▸ hi
    rw [find_most_independent_variable_eq]
    show (((keys.map scoreOf).zip keys).foldl selStep ((⊤ : WithTop ℚ), 0)).2 ∈ keys
    rw [heq, zip_scores_get scoreOf keys i hik hi]
    exact List.get_mem _ _ _

lemma eligibleKeys_subset (prior? : Option (ℕ → ℕ → ℤ)) (rem : List ℕ) :
    ∀ i ∈ eligibleKeys prior? rem, i ∈ rem := by
  intro i hi
  cases prior? with
  | none => exact hi
  | some prior => exact List.mem_of_mem_filter hi

lemma chosenKey_mem (prior? : Option (ℕ → ℕ → ℤ))
    (T : (ℕ → List ℚ) → List ℕ → ℕ → ℚ) (processes : ℕ) (s : EngState)
    (h : eligibleKeys prior? s.rem ≠ []) :
    chosenKey prior? T processes s ∈ s.rem :=
  eligibleKeys_subset prior? s.rem _
    (find_most_independent_mem (T s.vec (eligibleKeys prior? s.rem))
      (eligibleKeys prior? s.rem) processes h)

/-- Removing a present element of a duplicate-free list by filtering is a
permutation with consing it back on. -/
lemma perm_cons_filter_ne (k : ℕ) :
    ∀ (l : List ℕ), l.Nodup → k ∈ l →
      l.Perm (k :: l.filter (fun i => i ≠ k)) := by
  intro l
  induction l with
  | nil => intro _ h; exact absurd h (List.not_mem_nil k)
  | cons x xs ih =>
      intro hnd hk
      rcases List.mem_cons.mp hk with rfl | hkxs
      · have hknotin : k ∉ xs := (List.nodup_cons.mp hnd).1
        have hfilter : xs.filter (fun i => i ≠ k) = xs :=
          List.filter_eq_self.mpr (fun a ha => by
            simp only [decide_eq_true_eq]
            exact fun heq => hknotin (heq ▸ ha))
        have hdec : (decide (k ≠ k)) = false := by simp
        have hsimp : (k :: xs).filter (fun i => i ≠ k) = xs := by
          rw [List.filter_cons, hdec, if_neg Bool.false_ne_true]
          exact hfilter
        rw [hsimp]
      · have hxk : x ≠ k := fun h => (List.nodup_cons.mp hnd).1 (h ▸ hkxs)
        have hdec : (decide (x ≠ k)) = true := by simp [hxk]
        have hsimp : (x :: xs).filter (fun i => i ≠ k) =
            x :: xs.filter (fun i => i ≠ k) := by
          rw [List.filter_cons, hdec, if_pos rfl]
        rw [hsimp]
        have ihp := ih (List.nodup_cons.mp hnd).2 hkxs
        exact List.Perm.trans (List.Perm.cons x ihp) (List.Perm.swap k x _)

/-- The running invariant of the ordering loop: as long as every non-final
round has an eligible candidate, at the boundary of round `t ≤ n` the order
together with the remaining keys is a permutation of `range n`, and the
order holds exactly `t` keys. -/
lemma roundState_perm (n : ℕ) (X : ℕ → List ℚ) (prior? : Option (ℕ → ℕ → ℤ))
    (T : (ℕ → List ℚ) → List ℕ → ℕ → ℚ) (processes : ℕ)
    (helig : ∀ t, (roundState n X prior? T processes t).rem ≠ [] →
        eligibleKeys prior? (roundState n X prior? T processes t).rem ≠ []) :
    ∀ t, t ≤ n →
      ((roundState n X prior? T processes t).K
          ++ (roundState n X prior? T processes t).rem).Perm (List.range n)
      ∧ (roundState n X prior? T processes t).K.length = t := by
  intro t
  induction t with
  | zero =>
      intro _
      constructor
      · show (([] : List ℕ) ++ List.range n).Perm (List.range n)
        rw [List.nil_append]
      · rfl
  | succ t ih =>
      intro ht
      obtain ⟨hperm, hKlen⟩ := ih (Nat.le_of_succ_le ht)
      have hlensum : (roundState n X prior? T processes t).K.length
          + (roundState n X prior? T processes t).rem.length = n := by
        have := hperm.length_eq
        rwa [List.length_append, List.length_range] at this
      have hremlen : (roundState n X prior? T processes t).rem.length = n - t := by
        omega
      have hrem_ne : (roundState n X prior? T processes t).rem ≠ [] := by
        intro h
        rw [h] at hremlen
        simp at hremlen
        omega
      have hnd : ((roundState n X prior? T processes t).K
          ++ (roundState n X prior? T processes t).rem).Nodup :=
        hperm.symm.nodup (List.nodup_range n)
      have hrem_nd : (roundState n X prior? T processes t).rem.Nodup :=
        List.Nodup.of_append_right hnd
      have hk : chosenKey prior? T processes (roundState n X prior? T processes t)
          ∈ (roundState n X prior? T processes t).rem :=
        chosenKey_mem prior? T processes _ (helig t hrem_ne)
      have hstep : roundState n X prior? T processes (t + 1) =
          engineStep prior? T processes (roundState n X prior? T processes t) := rfl
      constructor
      · rw [hstep, engineStep_K, engineStep_rem, List.append_assoc]
        show ((roundState n X prior? T processes t).K ++
          (chosenKey prior? T processes (roundState n X prior? T processes t) ::
            (roundState n X prior? T processes t).rem.filter
              (fun i => i ≠ chosenKey prior? T processes
                (roundState n X prior? T processes t)))).Perm (List.range n)
        exact List.Perm.trans
          (List.Perm.append_left _ (perm_cons_filter_ne _ _ hrem_nd hk).symm) hperm
      · rw [hstep, engineStep_K, List.length_append, hKlen]
        rfl

/-- Under the same eligibility hypothesis the `while` loop with fuel `n`
runs for exactly `n` rounds. -/
lemma finalState_eq_roundState (n : ℕ) (X : ℕ → List ℚ)
    (prior? : Option (ℕ → ℕ → ℤ)) (T : (ℕ → List ℚ) → List ℕ → ℕ → ℚ)
    (processes : ℕ)
    (helig : ∀ t, (roundState n X prior? T processes t).rem ≠ [] →
        eligibleKeys prior? (roundState n X prior? T processes t).rem ≠ []) :
    finalState n X prior? T processes = roundState n X prior? T processes n := by
  have main : ∀ m t, t + m = n →
      engineLoop prior? T processes m (roundState n X prior? T processes t)
        = roundState n X prior? T processes n := by
    intro m
    induction m with
    | zero =>
        intro t ht
        have htn : t = n := by omega
        rw [htn]
        rfl
    | succ m ihm =>
        intro t ht
        have htn : t ≤ n := by omega
        obtain ⟨hperm, hKlen⟩ :=
          roundState_perm n X prior? T processes helig t htn
        have hlensum : (roundState n X prior? T processes t).K.length
            + (roundState n X prior? T processes t).rem.length = n := by
          have := hperm.length_eq
          rwa [List.length_append, List.length_range] at this
        have hrem_ne : (roundState n X prior? T processes t).rem ≠ [] := by
          intro h
          rw [h] at hlensum
          simp at hlensum
          omega
        show (if (roundState n X prior? T processes t).rem = []
            then roundState n X prior? T processes t
            else engineLoop prior? T processes m
              (engineStep prior? T processes (roundState n X prior? T processes t)))
          = roundState n X prior? T processes n
        rw [if_neg hrem_ne]
        exact ihm (t + 1) (by omega)
  have h0 : roundState n X prior? T processes 0 = initState n X := rfl
  show engineLoop prior? T processes n (initState n X)
    = roundState n X prior? T processes n
  rw [← h0]
  exact main n 0 (by omega)

/-! ## Claim C4 -/

/-- C4.  Whenever every round that still has remaining variables also has
at least one eligible candidate (which is automatic without a prior
matrix), the order returned by the engine has length `n` and is a
permutation of `0 .. n-1`. -/
theorem directLiNGAM_order_perm (n : ℕ) (X : ℕ → List ℚ)
    (prior? : Option (ℕ → ℕ → ℤ)) (T : (ℕ → List ℚ) → List ℕ → ℕ → ℚ)
    (processes : ℕ)
    (helig : ∀ t, (roundState n X prior? T processes t).rem ≠ [] →
        eligibleKeys prior? (roundState n X prior? T processes t).rem ≠ []) :
    (DirectLiNGAM n X prior? T processes).1.length = n
    ∧ ((DirectLiNGAM n X prior? T processes).1).Perm (List.range n) := by
  obtain ⟨hperm, hKlen⟩ :=
    roundState_perm n X prior? T processes helig n (le_refl n)
  have hlensum : (roundState n X prior? T processes n).K.length
      + (roundState n X prior? T processes n).rem.length = n := by
    have := hperm.length_eq
    rwa [List.length_append, List.length_range] at this
  have hrem_nil : (roundState n X prior? T processes n).rem = [] := by
    apply List.length_eq_zero.mp
    omega
  have hK : (DirectLiNGAM n X prior? T processes).1
      = (roundState n X prior? T processes n).K := by
    show (finalState n X prior? T processes).K = _
    rw [finalState_eq_roundState n X prior? T processes helig]
  constructor
  · rw [hK, hKlen]
  · rw [hK]
    have := hperm
    rwa [hrem_nil, List.append_nil] at this

/-- C4, witness for `directLiNGAM_order_perm` at `n = 2` with no prior
matrix. -/
theorem directLiNGAM_order_perm_witness :
    (DirectLiNGAM 2 (fun _ => [1, 2]) none (fun _ _ _ => 0) 1).1.length = 2
    ∧ ((DirectLiNGAM 2 (fun _ => [1, 2]) none (fun _ _ _ => 0) 1).1).Perm
        (List.range 2) :=
  directLiNGAM_order_perm 2 (fun _ => [1, 2]) none (fun _ _ _ => 0) 1
    (fun _ h => h)

/-! ## Claim C10 -/

/-- C10.  Round invariant (under the same eligibility hypothesis as C4,
automatic without a prior matrix; a round whose eligible set is empty
aborts the Python process mid-round, see C2): at every round boundary
`|K| + |X| = n`, each round removes exactly one index from the candidate
set, and an index once removed is never reinserted. -/
theorem round_invariant (n : ℕ) (X : ℕ → List ℚ)
    (prior? : Option (ℕ → ℕ → ℤ)) (T : (ℕ → List ℚ) → List ℕ → ℕ → ℚ)
    (processes : ℕ)
    (helig : ∀ t, (roundState n X prior? T processes t).rem ≠ [] →
        eligibleKeys prior? (roundState n X prior? T processes t).rem ≠ []) :
    (∀ t, t ≤ n → (roundState n X prior? T processes t).K.length
        + (roundState n X prior? T processes t).rem.length = n)
    ∧ ∀ t, t < n →
        ((roundState n X prior? T processes (t + 1)).rem.length + 1
            = (roundState n X prior? T processes t).rem.length)
        ∧ ∀ i, i ∈ (roundState n X prior? T processes (t + 1)).rem →
            i ∈ (roundState n X prior? T processes t).rem := by
  have hsum : ∀ t, t ≤ n → (roundState n X prior? T processes t).K.length
      + (roundState n X prior? T processes t).rem.length = n := by
    intro t ht
    obtain ⟨hperm, _⟩ := roundState_perm n X prior? T processes helig t ht
    have := hperm.length_eq
    rwa [List.length_append, List.length_range] at this
  refine ⟨hsum, ?_⟩
  intro t ht
  have h1 := hsum t (Nat.le_of_lt ht)
  have h2 := hsum (t + 1) ht
  obtain ⟨_, hKlen⟩ :=
    roundState_perm n X prior? T processes helig t (Nat.le_of_lt ht)
  obtain ⟨_, hKlen'⟩ := roundState_perm n X prior? T processes helig (t + 1) ht
  constructor
  · omega
  · intro i hi
    have hstep : roundState n X prior? T processes (t + 1) =
        engineStep prior? T processes (roundState n X prior? T processes t) := rfl
    rw [hstep, engineStep_rem] at hi
    exact List.mem_of_mem_filter hi

/-- C10, witness for `round_invariant` at `n = 2` with no prior matrix. -/
theorem round_invariant_witness :
    (∀ t, t ≤ 2 → (roundState 2 (fun _ => [1, 2]) none (fun _ _ _ => 0) 1 t).K.length
        + (roundState 2 (fun _ => [1, 2]) none (fun _ _ _ => 0) 1 t).rem.length = 2)
    ∧ ∀ t, t < 2 →
        ((roundState 2 (fun _ => [1, 2]) none (fun _ _ _ => 0) 1 (t + 1)).rem.length + 1
            = (roundState 2 (fun _ => [1, 2]) none (fun _ _ _ => 0) 1 t).rem.length)
        ∧ ∀ i, i ∈ (roundState 2 (fun _ => [1, 2]) none (fun _ _ _ => 0) 1 (t + 1)).rem →
            i ∈ (roundState 2 (fun _ => [1, 2]) none (fun _ _ _ => 0) 1 t).rem :=
  round_invariant 2 (fun _ => [1, 2]) none (fun _ _ _ => 0) 1 (fun _ h => h)

end DirectLiNGAMSpec
